import Mathlib

set_option maxRecDepth 100000

/-!
Verification of the core data structures and algorithms of the
COS-ECE470-fa2023 proof-of-work cryptocurrency node.

The Rust source is shallowly embedded:
* `HashMap` values are embedded as association lists with first-match lookup
  and replace-in-place insertion (`alookup` / `ainsert`).
* SHA-256 digests (`H256` in `src/types/hash.rs`, which is not part of the
  provided sources) are modelled from the spec as a free term algebra:
  `raw` is a literal 32-byte value (the all-zero hash is `raw 0`),
  `shaPair l r` is `sha256(l || r)` as computed in the Merkle tree,
  `shaTx` / `shaHeader` are the digests of the bincode serialization of a
  signed transaction resp. a block header.  Freeness models collision
  resistance of SHA-256; all positive theorems proved about `Merkle.verify`
  hold for an arbitrary combiner and do not use freeness.
* Ed25519 signature verification (the external `ring` library) is modelled
  as an oracle `V : SignedTransaction → Bool` passed to every function that
  calls `verify_signed_transaction`.
* The ICO address (the base64 public key loaded from `key_pair.pem`) is
  modelled as a `String` parameter `ico`.
* Machine integers are `Nat`/`Int`: the `i64 → u128` cast in
  `State::apply_transaction` and the wrapping `u64`/`u128` additions are
  modelled with explicit `% 2 ^ w`; `u32` block heights are modelled as
  plain `Nat` (an overflow would require a chain of 2^32 blocks).
* The two `while` loops of `Blockchain::get_state_up_to_block` are modelled
  with an explicit fuel parameter; `RunResult.out` is the result of running
  out of fuel, so a configuration returning `out` for every fuel models
  divergence, and `RunResult.panicked` models the `unwrap()` panic.
-/

deriving instance DecidableEq for Except

/-- First-match lookup in an association list (models `HashMap::get`). -/
def alookup {α β : Type} [DecidableEq α] : List (α × β) → α → Option β
  | [], _ => none
  | (k, v) :: rest, key => if key = k then some v else alookup rest key

/-- Replace-in-place (or append) insertion into an association list
(models `HashMap::insert`). -/
def ainsert {α β : Type} [DecidableEq α] : List (α × β) → α → β → List (α × β)
  | [], key, v => [(key, v)]
  | (k, w) :: rest, key, v =>
      if key = k then (k, v) :: rest else (k, w) :: ainsert rest key v

/-- `Transaction` from `src/types/transaction.rs`: sender and receiver are
base64-encoded public keys, `value` is an `i64`, `nonce` a `u64`. -/
structure Transaction where
  sender : String
  receiver : String
  value : Int
  nonce : Nat
deriving DecidableEq

/-- `SignedTransaction` from `src/types/transaction.rs`. -/
structure SignedTransaction where
  transaction : Transaction
  signature : List Nat
  public_key : List Nat
deriving DecidableEq

/-- Modelled from the spec: SHA-256 digests (`H256` in the missing
`src/types/hash.rs`) as a free term algebra, see the file header. -/
inductive H256 : Type where
  | raw : Nat → H256
  | shaPair : H256 → H256 → H256
  | shaTx : SignedTransaction → H256
  | shaHeader : H256 → Nat → H256 → Nat → H256 → H256
deriving DecidableEq

/-- The all-zero hash `H256::from([0; 32])` / `H256::default()`. -/
def zeroHash : H256 := H256.raw 0

/-- `Header` from `src/types/block.rs`. -/
structure Header where
  parent : H256
  nonce : Nat
  difficulty : H256
  timestamp : Nat
  merkle_root : H256
deriving DecidableEq

/-- `Block` from `src/types/block.rs` (`content` is inlined as its only
field, the transaction list). -/
structure Block where
  header : Header
  transactions : List SignedTransaction
deriving DecidableEq

/-- `Header::hash`: SHA-256 of the bincode serialization of the header. -/
def Header.hash (h : Header) : H256 :=
  H256.shaHeader h.parent h.nonce h.difficulty h.timestamp h.merkle_root

/-- `Block::hash` delegates to the header hash. -/
def Block.hash (b : Block) : H256 := b.header.hash

/-- `SignedTransaction::hash`: SHA-256 of the bincode serialization. -/
def SignedTransaction.hash (t : SignedTransaction) : H256 := H256.shaTx t

/-- The fixed difficulty constant `000010ff…ff` used by `Header::new` and
`Header::get_genesis_header`. -/
def fixedDifficulty : H256 :=
  H256.raw 0x000010ffffffffffffffffffffffffffffffffffffffffffffffffffffffffff

/-- `Block::get_genesis_block` (via `Header::get_genesis_header`):
zero parent, nonce 0, fixed difficulty, fixed timestamp, zero merkle root,
no transactions. -/
def Block.get_genesis_block : Block :=
  { header :=
      { parent := zeroHash
        nonce := 0
        difficulty := fixedDifficulty
        timestamp := 1615523200000
        merkle_root := zeroHash }
    transactions := [] }

/-! ## Merkle tree (`src/types/merkle.rs`)

`MerkleTree::new` is generic over `T : Hashable` and first maps every datum
to its hash; the embedding takes that list of leaf digests as input. -/

/-- One pass of the layer-building loop body: hash adjacent pairs
(`sha256(left || right)`).  The input is always padded to even length
before this is applied, so the single-element fallthrough is unreachable
(in Rust an odd layer would index out of bounds). -/
def combinePairs : List H256 → List H256
  | a :: b :: rest => H256.shaPair a b :: combinePairs rest
  | _ => []

/-- Padding step inside the `while` loop of `MerkleTree::new`: when the
layer has odd size, duplicate its last element (the layer is nonempty
there, so the `getD` default is unreachable). -/
def padLayer (cur : List H256) : List H256 :=
  if cur.length % 2 ≠ 0 then cur ++ [cur.getLast?.getD zeroHash] else cur

/-- The `while current_layer.len() > 1` loop of `MerkleTree::new`,
collecting the (padded) layers.  The fuel `n` bounds the number of
iterations; `cur.length` is always sufficient since each iteration at
least halves the layer. -/
def buildLayers : Nat → List H256 → List (List H256)
  | 0, _ => []
  | n + 1, cur =>
      if cur.length ≤ 1 then []
      else
        let padded := padLayer cur
        padded :: buildLayers n (combinePairs padded)

/-- The same loop, returning the final layer (of size ≤ 1) instead. -/
def rootAux : Nat → List H256 → List H256
  | 0, cur => cur
  | n + 1, cur =>
      if cur.length ≤ 1 then cur else rootAux n (combinePairs (padLayer cur))

/-- The `layers` field computed by `MerkleTree::new` on leaf digests. -/
def layersOf (leaves : List H256) : List (List H256) :=
  buildLayers leaves.length leaves

/-- The `root` field computed by `MerkleTree::new`: the single element of
the final layer, or `H256::default()` for empty input. -/
def rootOf (leaves : List H256) : H256 :=
  match rootAux leaves.length leaves with
  | x :: _ => x
  | [] => zeroHash

/-- `MerkleTree` from `src/types/merkle.rs`. -/
structure MerkleTree where
  root : H256
  layers : List (List H256)
deriving DecidableEq

/-- `MerkleTree::new`, on the list of leaf digests. -/
def MerkleTree.new (leaves : List H256) : MerkleTree :=
  { root := rootOf leaves, layers := layersOf leaves }

/-- The loop of `MerkleTree::proof`: record the sibling at each layer and
halve the index.  Rust indexes `layer[index + 1]` / `layer[index - 1]`,
which panics out of bounds; the `getD` default is unreachable for valid
indices. -/
def proofAux : List (List H256) → Nat → List H256
  | [], _ => []
  | layer :: rest, i =>
      (if i % 2 = 0 then layer.getD (i + 1) zeroHash
       else layer.getD (i - 1) zeroHash) :: proofAux rest (i / 2)

/-- `MerkleTree::proof`. -/
def MerkleTree.proof (t : MerkleTree) (index : Nat) : List H256 :=
  proofAux t.layers index

/-- The `for &sibling in proof` loop of `verify` in `src/types/merkle.rs`:
the running index determines the concatenation order, then the index is
updated to `(index - 1) / 2` (in Rust `index - 1` would panic at
`index = 0`; for the inputs considered the index stays positive until the
proof is exhausted, and Nat subtraction truncates otherwise). -/
def verifyGo (root : H256) : List H256 → H256 → Nat → Bool
  | [], h, _ => decide (h = root)
  | sib :: rest, h, idx =>
      verifyGo root rest
        (if idx % 2 = 0 then H256.shaPair sib h else H256.shaPair h sib)
        ((idx - 1) / 2)

/-- `verify` from `src/types/merkle.rs`: round `leaf_size` up to even and
start from the heap-style index `index + leaf_count - 1`. -/
def Merkle.verify (root datum : H256) (proof : List H256)
    (index leaf_size : Nat) : Bool :=
  let leaf_count := if leaf_size % 2 ≠ 0 then leaf_size + 1 else leaf_size
  verifyGo root proof datum (index + leaf_count - 1)

/-! ## State (`src/types/state.rs`) -/

/-- `AccountInfo`: `nonce: u64`, `balance: u128`. -/
structure AccountInfo where
  nonce : Nat
  balance : Nat
deriving DecidableEq

/-- `State`: account address (public-key string) to account info. -/
abbrev State := List (String × AccountInfo)

/-- `State::new` seeds the ICO address (public key of `key_pair.pem`,
taken as the parameter `ico`) with balance 200000 at nonce 0. -/
def State.new (ico : String) : State :=
  ainsert [] ico ⟨0, 200000⟩

/-- The cast `tx.get_value() as u128` applied to an `i64` value: negative
values wrap to `2^128 + v`. -/
def u128OfI64 (v : Int) : Nat := (v % (2 : Int) ^ 128).toNat

/-- `State::apply_transaction`.  Fails when the signature oracle `V`
rejects, when the sender has no account, or when the sender's balance is
below the (cast) value; otherwise debits the sender, bumps its nonce and
credits the receiver (creating it at nonce 0, balance 0 when absent).
Additions wrap at the machine width. -/
def State.apply_transaction (V : SignedTransaction → Bool) (s : State)
    (tx : SignedTransaction) : Except String State :=
  if ¬ V tx then .error ("Invalid transaction signature")
  else
    let sender := tx.transaction.sender
    let receiver := tx.transaction.receiver
    let value := u128OfI64 tx.transaction.value
    match alookup s sender with
    | none => .error ("Sender account does not exist")
    | some info =>
        if info.balance < value then
          .error ("Insufficient funds or incorrect nonce")
        else
          let s1 := ainsert s sender
            ⟨(info.nonce + 1) % 2 ^ 64, info.balance - value⟩
          let rinfo := (alookup s1 receiver).getD ⟨0, 0⟩
          .ok (ainsert s1 receiver
            ⟨rinfo.nonce, (rinfo.balance + value) % 2 ^ 128⟩)

/-- Sequential application of a block's transactions with `?`-style error
propagation, as in the `for transaction in block.get_transactions()` loop
of `Blockchain::get_state_up_to_block`. -/
def applyTxs (V : SignedTransaction → Bool) (s : State) :
    List SignedTransaction → Except String State
  | [] => .ok s
  | tx :: rest =>
      match State.apply_transaction V s tx with
      | .ok s2 => applyTxs V s2 rest
      | .error e => .error e

/-! ## Blockchain (`src/blockchain/mod.rs`) -/

/-- `Blockchain`: block index, tip, height map (`lengths`) and the running
state mutated by `insert`. -/
structure Blockchain where
  blocks : List (H256 × Block)
  tip : H256
  lengths : List (H256 × Nat)
  state : State
deriving DecidableEq

/-- `Blockchain::new`: genesis only, tip at genesis, height 0. -/
def Blockchain.new (ico : String) : Blockchain :=
  { blocks := [(Block.get_genesis_block.hash, Block.get_genesis_block)]
    tip := Block.get_genesis_block.hash
    lengths := [(Block.get_genesis_block.hash, 0)]
    state := State.new ico }

/-- The `Option<&u32>` order used by `insert`'s tip comparison:
`None < Some _`, `Some a < Some b ↔ a < b`. -/
def optLt : Option Nat → Option Nat → Bool
  | none, some _ => true
  | some a, some b => decide (a < b)
  | _, none => false

/-- `lengths.get(h).copied().unwrap_or_default()` /
`lengths.get(h).unwrap_or(&0)`. -/
def lenAt (bc : Blockchain) (h : H256) : Nat :=
  (alookup bc.lengths h).getD 0

/-- `Blockchain::insert`: store the block, set its height to the parent's
height (default 0) plus one, move the tip when the new height is strictly
greater (comparison on `Option<&u32>` after the height map update), then
apply the block's transactions to the running state, ignoring failures. -/
def Blockchain.insert (V : SignedTransaction → Bool) (bc : Blockchain)
    (b : Block) : Blockchain :=
  let h := b.hash
  let blocks2 := ainsert bc.blocks h b
  let newLen := (alookup bc.lengths b.header.parent).getD 0 + 1
  let lengths2 := ainsert bc.lengths h newLen
  let tip2 :=
    if optLt (alookup lengths2 bc.tip) (alookup lengths2 h) then h
    else bc.tip
  let state2 := b.transactions.foldl
    (fun st tx =>
      match State.apply_transaction V st tx with
      | .ok st2 => st2
      | .error _ => st)
    bc.state
  { blocks := blocks2, tip := tip2, lengths := lengths2, state := state2 }

/-- `Blockchain::contains_block`. -/
def Blockchain.contains_block (bc : Blockchain) (h : H256) : Bool :=
  (alookup bc.blocks h).isSome

/-- `Blockchain::contains_transaction`: linear scan over ALL stored
blocks (not only the longest chain). -/
def Blockchain.contains_transaction (bc : Blockchain) (txHash : H256) : Bool :=
  bc.blocks.any (fun p => p.2.transactions.any (fun tx => tx.hash = txHash))

/-- The `while let Some(block) = blocks.get(&current_hash)` walk of
`all_blocks_in_longest_chain`, before the final `reverse`.  Fuel bounds
the walk (a cycle in an arbitrary block map would loop forever). -/
def chainWalk (bc : Blockchain) : Nat → H256 → List H256
  | 0, _ => []
  | n + 1, cur =>
      match alookup bc.blocks cur with
      | some b => cur :: chainWalk bc n b.header.parent
      | none => []

/-- `Blockchain::all_blocks_in_longest_chain`: parent walk from the tip,
reversed to genesis-to-tip order. -/
def Blockchain.all_blocks_in_longest_chain (bc : Blockchain) (fuel : Nat) :
    List H256 :=
  (chainWalk bc fuel bc.tip).reverse

/-- Result of running the fuelled `get_state_up_to_block` loops:
`out` = fuel exhausted (models divergence when it holds for every fuel),
`panicked` = the `unwrap()` on a missing block in the skip branch,
`err` = `Err(..)` return, `ok` = `Ok(state)`. -/
inductive RunResult : Type where
  | out : RunResult
  | panicked : RunResult
  | err : String → RunResult
  | ok : State → RunResult
deriving DecidableEq

/-- Result of the inner `while` loop: fuel exhaustion, `Err` return, or
fall-through with the updated state, hash and height. -/
inductive InnerRes : Type where
  | out : InnerRes
  | err : String → InnerRes
  | cont : State → H256 → Nat → InnerRes

/-- The inner `while current > 0 && current <= block_number` loop of
`get_state_up_to_block`: apply the current block's transactions with `?`
propagation and step to the parent. -/
def innerLoop (V : SignedTransaction → Bool) (bc : Blockchain) (bn : Nat) :
    Nat → State → H256 → Nat → InnerRes
  | 0, _, _, _ => .out
  | fuel + 1, st, cur, n =>
      if 0 < n ∧ n ≤ bn then
        match alookup bc.blocks cur with
        | some b =>
            match applyTxs V st b.transactions with
            | .ok st2 =>
                innerLoop V bc bn fuel st2 b.header.parent
                  (lenAt bc b.header.parent)
            | .error e => .err e
        | none => .err ("Block not found")
      else .cont st cur n

/-- The outer `while current >= block_number` loop of
`get_state_up_to_block`: run the inner loop, then (when the height is
still positive) skip one block via the unwrapped parent pointer. -/
def outerLoop (V : SignedTransaction → Bool) (bc : Blockchain) (bn : Nat) :
    Nat → State → H256 → Nat → RunResult
  | 0, _, _, _ => .out
  | fuel + 1, st, cur, n =>
      if bn ≤ n then
        match innerLoop V bc bn (fuel + 1) st cur n with
        | .out => .out
        | .err e => .err e
        | .cont st2 cur2 n2 =>
            if 0 < n2 then
              match alookup bc.blocks cur2 with
              | some b =>
                  outerLoop V bc bn fuel st2 b.header.parent
                    (lenAt bc b.header.parent)
              | none => .panicked
            else outerLoop V bc bn fuel st2 cur2 n2
      else .ok st

/-- `Blockchain::get_state_up_to_block`: start a fresh `State::new()` at
the tip, clamp the requested height to the tip's height, and run the
nested loops. -/
def Blockchain.get_state_up_to_block (V : SignedTransaction → Bool)
    (ico : String) (bc : Blockchain) (block_number fuel : Nat) : RunResult :=
  let cur := bc.tip
  let n := lenAt bc cur
  let bn := if block_number > n then n else block_number
  outerLoop V bc bn fuel (State.new ico) cur n

/-! ## Mempool (`src/types/mempool.rs`) -/

/-- `Mempool`: transaction hash to signed transaction. -/
structure Mempool where
  transactions : List (H256 × SignedTransaction)
deriving DecidableEq

/-- The selection loop of `Mempool::get_transactions_for_block`: stop at
`max_size`, skip transactions already contained in ANY stored block. -/
def txSelect (bc : Blockchain) (maxSize : Nat) :
    List (H256 × SignedTransaction) → List SignedTransaction →
    List SignedTransaction
  | [], acc => acc
  | p :: rest, acc =>
      if maxSize ≤ acc.length then acc
      else if bc.contains_transaction p.2.hash then txSelect bc maxSize rest acc
      else txSelect bc maxSize rest (acc ++ [p.2])

/-- `Mempool::get_transactions_for_block`. -/
def Mempool.get_transactions_for_block (mp : Mempool) (maxSize : Nat)
    (bc : Blockchain) : List SignedTransaction :=
  txSelect bc maxSize mp.transactions []

/-! ## Miner (`src/miner/mod.rs`) and block-publish worker
(`src/miner/worker.rs`) -/

/-- The candidate block built by `miner_loop`: `Block::new(parent)` (whose
`Header::new` fills the fixed difficulty, a fresh timestamp and a ZERO
merkle root), then `add_transactions`, then `set_nonce`.  The random
initial nonce, the final nonce and the timestamp are runtime inputs. -/
def minerCandidate (parent : H256) (txs : List SignedTransaction)
    (nonce timestamp : Nat) : Block :=
  { header :=
      { parent := parent
        nonce := nonce
        difficulty := fixedDifficulty
        timestamp := timestamp
        merkle_root := zeroHash }
    transactions := txs }

/-- The success branch of the PoW loop in `miner_loop` (lines 182-191):
send the block on the publish channel AND insert it into the blockchain.
Returns the updated chain and the emitted block. -/
def minerSuccessStep (V : SignedTransaction → Bool) (bc : Blockchain)
    (b : Block) : Blockchain × Block :=
  (bc.insert V b, b)

/-- One iteration of `Worker::worker_loop` on a received mined block:
insert it into the blockchain (the broadcast is out of scope). -/
def workerHandleBlock (V : SignedTransaction → Bool) (bc : Blockchain)
    (b : Block) : Blockchain :=
  bc.insert V b

/-! ## Auxiliaries for the verification -/

/-- Concatenation of the transaction lists of a list of blocks. -/
def concatTxs : List Block → List SignedTransaction
  | [] => []
  | b :: rest => b.transactions ++ concatTxs rest

/-- Inject an `Except`-style replay result into `RunResult`. -/
def toRunResult : Except String State → RunResult
  | .ok s => .ok s
  | .error e => .err e

/-- `chainSeg bc cs h n` states that, starting at hash `h` with height `n`,
the list `cs` is the chain segment down to height 0: each listed block is
stored at its hash with exactly the listed height, links to its
predecessor, and the walk ends at a hash of height 0. -/
def chainSeg (bc : Blockchain) : List Block → H256 → Nat → Bool
  | [], h, n => decide (n = 0) && decide (lenAt bc h = 0)
  | b :: rest, h, n =>
      decide (alookup bc.blocks h = some b) &&
      decide (alookup bc.lengths h = some n) &&
      decide (0 < n) &&
      chainSeg bc rest b.header.parent (n - 1)

/-- Whether a digest is a literal byte value (as opposed to the output of
a SHA-256 computation). -/
def H256.isRaw : H256 → Bool
  | .raw _ => true
  | _ => false

/-- Well-formedness of a `Blockchain` value, satisfied by `Blockchain.new`
and preserved by `insert`: the tip has a height entry, stored blocks sit
at their own hash, the height map and the block map have the same keys,
the tip's height is maximal, and every height is at most its parent's
height (default 0) plus one. -/
def Blockchain.WF (bc : Blockchain) : Prop :=
  (∃ t, alookup bc.lengths bc.tip = some t) ∧
  (∀ h b, alookup bc.blocks h = some b → b.hash = h) ∧
  (∀ h b, alookup bc.blocks h = some b → ∃ n, alookup bc.lengths h = some n) ∧
  (∀ h n, alookup bc.lengths h = some n → ∃ b, alookup bc.blocks h = some b) ∧
  (∀ h n t, alookup bc.lengths h = some n →
    alookup bc.lengths bc.tip = some t → n ≤ t) ∧
  (∀ h b n, alookup bc.blocks h = some b → alookup bc.lengths h = some n →
    n ≤ lenAt bc b.header.parent + 1)

/-! Concrete objects used by witnesses and counterexamples. -/

/-- Signature oracle accepting every signature (a run in which `ring`
verifies all submitted transactions). -/
def Vtrue : SignedTransaction → Bool := fun _ => true

/-- A transaction moving 5 from the ICO address `"A"` to `"B"`. -/
def exTx1 : SignedTransaction := ⟨⟨"A", "B", 5, 0⟩, [], []⟩

/-- A transaction moving 3 from `"B"` to `"C"`. -/
def exTx2 : SignedTransaction := ⟨⟨"B", "C", 3, 0⟩, [], []⟩

/-- A zero-value transaction from an address without an account. -/
def exTxZ : SignedTransaction := ⟨⟨"S", "R", 0, 0⟩, [], []⟩

/-- A height-1 block on genesis carrying `exTx1`. -/
def exB1 : Block :=
  ⟨⟨Block.get_genesis_block.hash, 1, fixedDifficulty, 1, zeroHash⟩, [exTx1]⟩

/-- A height-2 block on `exB1` carrying `exTx2`. -/
def exB2 : Block := ⟨⟨exB1.hash, 2, fixedDifficulty, 2, zeroHash⟩, [exTx2]⟩

/-- A height-1 block on genesis with no transactions. -/
def exBE : Block :=
  ⟨⟨Block.get_genesis_block.hash, 3, fixedDifficulty, 3, zeroHash⟩, []⟩

/-- The two-block chain genesis → `exB1` → `exB2` (ICO address `"A"`). -/
def exBc2 : Blockchain := ((Blockchain.new "A").insert Vtrue exB1).insert Vtrue exB2

/-- A second height-1 block on genesis with no transactions. -/
def exBB : Block :=
  ⟨⟨Block.get_genesis_block.hash, 11, fixedDifficulty, 2, zeroHash⟩, []⟩

/-- A height-2 block on `exBB` with no transactions. -/
def exBC : Block := ⟨⟨exBB.hash, 12, fixedDifficulty, 3, zeroHash⟩, []⟩

/-- A forked chain: `exB1` (carrying `exTx1`) sits on a height-1 side
branch while the longest chain is genesis → `exBB` → `exBC`. -/
def exBc8 : Blockchain :=
  (((Blockchain.new "A").insert Vtrue exB1).insert Vtrue exBB).insert Vtrue exBC

/-- A mempool holding exactly `exTx1`. -/
def exMp : Mempool := ⟨[(exTx1.hash, exTx1)]⟩

/-- Five distinct raw leaf digests: a Merkle input whose padded size 6 is
not a power of two. -/
def exLeaves5 : List H256 :=
  [H256.raw 10, H256.raw 11, H256.raw 12, H256.raw 13, H256.raw 14]

/-- A block whose parent hash `raw 99` is not in any chain considered. -/
def exOrphan : Block := ⟨⟨H256.raw 99, 7, fixedDifficulty, 4, zeroHash⟩, []⟩

/-- A block on genesis carrying the doomed transaction `exTxZ`. -/
def exBZ : Block :=
  ⟨⟨Block.get_genesis_block.hash, 8, fixedDifficulty, 5, zeroHash⟩, [exTxZ]⟩

/-- Genesis plus `exBZ`: replaying this chain hits a failing transaction. -/
def exBcZ : Blockchain := (Blockchain.new "A").insert Vtrue exBZ

/-- Genesis plus the transaction-free block `exBE`. -/
def exBcE : Blockchain := (Blockchain.new "A").insert Vtrue exBE

/-! ## Association list lemmas -/

theorem alookup_ainsert_self {α β : Type} [DecidableEq α]
    (l : List (α × β)) (k : α) (v : β) : alookup (ainsert l k v) k = some v := by
  induction l with
  | nil => simp [ainsert, alookup]
  | cons p rest ih =>
      obtain ⟨k2, w⟩ := p
      by_cases hk : k = k2
      · subst hk; simp [ainsert, alookup]
      · simp [ainsert, alookup, hk, ih]

theorem alookup_ainsert_ne {α β : Type} [DecidableEq α]
    (l : List (α × β)) (k k2 : α) (v : β) (h : k2 ≠ k) :
    alookup (ainsert l k v) k2 = alookup l k2 := by
  induction l with
  | nil => simp [ainsert, alookup, h]
  | cons p rest ih =>
      obtain ⟨k3, w⟩ := p
      by_cases hk : k = k3
      · subst hk; simp [ainsert, alookup, h]
      · by_cases hk2 : k2 = k3
        · subst hk2; simp [ainsert, alookup, hk]
        · simp [ainsert, alookup, hk, hk2, ih]

theorem ainsert_ainsert {α β : Type} [DecidableEq α]
    (l : List (α × β)) (k : α) (v : β) :
    ainsert (ainsert l k v) k v = ainsert l k v := by
  induction l with
  | nil => simp [ainsert]
  | cons p rest ih =>
      obtain ⟨k2, w⟩ := p
      by_cases hk : k = k2
      · subst hk; simp [ainsert]
      · simp [ainsert, hk, ih]

theorem alookup_singleton {α β : Type} [DecidableEq α]
    {k x : α} {v : β} {w : β} (h : alookup [(k, v)] x = some w) :
    x = k ∧ w = v := by
  by_cases hx : x = k
  · subst hx; simp [alookup] at h; exact ⟨rfl, h.symm⟩
  · simp [alookup, hx] at h

/-! ## Hash algebra lemmas -/

theorem shaHeader_ne_parent (p : H256) (n : Nat) (d : H256) (t : Nat)
    (m : H256) : H256.shaHeader p n d t m ≠ p := by
  intro h
  have h2 := congrArg sizeOf h
  simp at h2
  omega

theorem block_hash_ne_parent (b : Block) : b.hash ≠ b.header.parent :=
  shaHeader_ne_parent _ _ _ _ _

theorem header_hash_inj {h1 h2 : Header} (e : h1.hash = h2.hash) :
    h1 = h2 := by
  cases h1; cases h2
  simp only [Header.hash, H256.shaHeader.injEq] at e
  obtain ⟨e1, e2, e3, e4, e5⟩ := e
  subst e1; subst e2; subst e3; subst e4; subst e5
  rfl

/-! ## Idempotence of `Blockchain::insert` on blocks, heights and tip
(shared by the C3 and C5 theorems) -/

theorem insert_insert_blocks (V : SignedTransaction → Bool)
    (bc : Blockchain) (b : Block) :
    ((bc.insert V b).insert V b).blocks = (bc.insert V b).blocks := by
  simp only [Blockchain.insert]
  exact ainsert_ainsert _ _ _

theorem insert_insert_lengths (V : SignedTransaction → Bool)
    (bc : Blockchain) (b : Block) :
    ((bc.insert V b).insert V b).lengths = (bc.insert V b).lengths := by
  simp only [Blockchain.insert]
  rw [alookup_ainsert_ne _ _ _ _ (Ne.symm (block_hash_ne_parent b))]
  exact ainsert_ainsert _ _ _

theorem insert_insert_tip (V : SignedTransaction → Bool)
    (bc : Blockchain) (b : Block) :
    ((bc.insert V b).insert V b).tip = (bc.insert V b).tip := by
  have hlen := insert_insert_lengths V bc b
  simp only [Blockchain.insert] at hlen ⊢
  rw [alookup_ainsert_ne _ _ _ _ (Ne.symm (block_hash_ne_parent b))] at hlen ⊢
  rw [hlen]
  by_cases hc :
      optLt (alookup (ainsert bc.lengths b.hash
          ((alookup bc.lengths b.header.parent).getD 0 + 1)) bc.tip)
        (alookup (ainsert bc.lengths b.hash
          ((alookup bc.lengths b.header.parent).getD 0 + 1)) b.hash) = true
  · simp only [hc, if_true]
    rw [alookup_ainsert_self]
    simp [optLt]
  · simp only [hc]
    simp only [Bool.not_eq_true] at hc
    simp [hc]

/-! ## C3: idempotence of `insert` -/

/-- C3 counterexample: inserting `exB1` twice into a fresh chain debits
the ICO account twice, so the blockchain (through its derived state) is
NOT identical to the result after the first insert. -/
theorem c3_insert_twice_changes_state :
    alookup (((Blockchain.new "A").insert Vtrue exB1).insert
        Vtrue exB1).state "A" = some ⟨2, 199990⟩ ∧
    alookup ((Blockchain.new "A").insert Vtrue exB1).state "A" =
      some ⟨1, 199995⟩ ∧
    ((Blockchain.new "A").insert Vtrue exB1).insert Vtrue exB1 ≠
      (Blockchain.new "A").insert Vtrue exB1 := by
  refine ⟨by decide, by decide, ?_⟩
  intro h
  have := congrArg (fun bc => alookup bc.state "A") h
  simp only at this
  revert this
  decide

/-- C3 (amended): inserting the same block twice leaves the block index,
the height map and the tip exactly as after the first insert; only the
derived state may change, because the second insert re-applies the block's
transactions to it. -/
theorem c3_insert_idempotent_on_index_heights_tip
    (V : SignedTransaction → Bool) (bc : Blockchain) (b : Block) :
    ((bc.insert V b).insert V b).blocks = (bc.insert V b).blocks ∧
    ((bc.insert V b).insert V b).lengths = (bc.insert V b).lengths ∧
    ((bc.insert V b).insert V b).tip = (bc.insert V b).tip :=
  ⟨insert_insert_blocks V bc b, insert_insert_lengths V bc b,
    insert_insert_tip V bc b⟩

/-! ## C5: who inserts miner-originated blocks -/

/-- C5 counterexample: the mining loop's success branch itself mutates the
blockchain: before it the fresh chain does not contain `exB1`, afterwards
it does, so insertion is not performed solely by the block-publish
worker. -/
theorem c5_miner_loop_mutates_chain :
    (Blockchain.new "A").contains_block exB1.hash = false ∧
    ((minerSuccessStep Vtrue (Blockchain.new "A") exB1).1).contains_block
      exB1.hash = true := by
  constructor
  · decide
  · decide

/-- C5 (amended): on PoW success the mining loop emits the mined block on
the publish channel AND inserts it into the blockchain itself; the
block-publish worker then inserts the same block a second time, which
leaves the block index, height map and tip unchanged (the duplicate
insert is only visible in the derived state). -/
theorem c5_miner_inserts_worker_reinserts
    (V : SignedTransaction → Bool) (bc : Blockchain) (b : Block) :
    (minerSuccessStep V bc b).2 = b ∧
    ((minerSuccessStep V bc b).1).contains_block b.hash = true ∧
    (workerHandleBlock V (minerSuccessStep V bc b).1 b).blocks =
      ((minerSuccessStep V bc b).1).blocks ∧
    (workerHandleBlock V (minerSuccessStep V bc b).1 b).lengths =
      ((minerSuccessStep V bc b).1).lengths ∧
    (workerHandleBlock V (minerSuccessStep V bc b).1 b).tip =
      ((minerSuccessStep V bc b).1).tip := by
  refine ⟨rfl, ?_, insert_insert_blocks V bc b, insert_insert_lengths V bc b,
    insert_insert_tip V bc b⟩
  simp only [minerSuccessStep, Blockchain.contains_block, Blockchain.insert]
  rw [alookup_ainsert_self]
  rfl

/-! ## C10: insertion with a missing parent -/

/-- C10: when the parent hash has no height entry, `insert` still stores
the block and assigns it height `0 + 1 = 1`; no parent-presence
precondition is checked. -/
theorem c10_insert_missing_parent (V : SignedTransaction → Bool)
    (bc : Blockchain) (b : Block)
    (hp : alookup bc.lengths b.header.parent = none) :
    alookup (bc.insert V b).blocks b.hash = some b ∧
    alookup (bc.insert V b).lengths b.hash = some 1 := by
  simp only [Blockchain.insert, hp]
  exact ⟨alookup_ainsert_self _ _ _, alookup_ainsert_self _ _ _⟩

/-- C10 witness: the parent `raw 99` of `exOrphan` is unknown to the fresh
chain, and inserting it stores the block at height 1. -/
theorem c10_insert_missing_parent_witness :
    alookup (Blockchain.new "A").lengths exOrphan.header.parent = none ∧
    alookup ((Blockchain.new "A").insert Vtrue exOrphan).blocks
      exOrphan.hash = some exOrphan ∧
    alookup ((Blockchain.new "A").insert Vtrue exOrphan).lengths
      exOrphan.hash = some 1 :=
  ⟨by decide,
    (c10_insert_missing_parent Vtrue (Blockchain.new "A") exOrphan
      (by decide)).1,
    (c10_insert_missing_parent Vtrue (Blockchain.new "A") exOrphan
      (by decide)).2⟩

/-! ## Merkle layer lemmas -/

theorem combinePairs_length :
    ∀ l : List H256, (combinePairs l).length = l.length / 2
  | [] => by simp [combinePairs]
  | [_] => by simp [combinePairs]
  | a :: b :: rest => by
      simp [combinePairs, combinePairs_length rest]
      omega

theorem combinePairs_isRaw_false :
    ∀ (l : List H256) (x : H256), x ∈ combinePairs l → x.isRaw = false
  | a :: b :: rest, x, hx => by
      rcases List.mem_cons.mp hx with h | h
      · subst h; rfl
      · exact combinePairs_isRaw_false rest x h
  | [], x, hx => by simp [combinePairs] at hx
  | [_], x, hx => by simp [combinePairs] at hx

theorem padLayer_length (cur : List H256) :
    (padLayer cur).length = cur.length + cur.length % 2 := by
  by_cases h : cur.length % 2 = 0
  · simp [padLayer, h]
  · simp only [padLayer, if_pos h, List.length_append, List.length_cons,
      List.length_nil]
    omega

theorem rootAux_head_isRaw_false :
    ∀ (fuel : Nat) (cur : List H256), cur ≠ [] →
      (∀ x ∈ cur, x.isRaw = false) →
      ∃ y t, rootAux fuel cur = y :: t ∧ y.isRaw = false
  | 0, cur, hne, hall => by
      cases cur with
      | nil => exact absurd rfl hne
      | cons a t => exact ⟨a, t, rfl, hall a (List.mem_cons_self a t)⟩
  | fuel + 1, cur, hne, hall => by
      by_cases hlen : cur.length ≤ 1
      · simp only [rootAux, if_pos hlen]
        cases cur with
        | nil => exact absurd rfl hne
        | cons a t => exact ⟨a, t, rfl, hall a (List.mem_cons_self a t)⟩
      · simp only [rootAux, if_neg hlen]
        apply rootAux_head_isRaw_false fuel
        · have hp := padLayer_length cur
          have hc := combinePairs_length (padLayer cur)
          intro hnil
          rw [hnil] at hc
          simp only [List.length_nil] at hc
          omega
        · exact fun x hx => combinePairs_isRaw_false _ x hx

theorem rootOf_isRaw_false (leaves : List H256) (hne : leaves ≠ [])
    (hall : ∀ x ∈ leaves, x.isRaw = false) :
    (rootOf leaves).isRaw = false := by
  obtain ⟨y, t, heq, hy⟩ :=
    rootAux_head_isRaw_false leaves.length leaves hne hall
  unfold rootOf
  rw [heq]
  exact hy

/-! ## C4: the miner's merkle root -/

/-- C4 counterexample: a candidate block carrying one transaction has the
zero hash in its header while the Merkle root of its transaction hashes is
not the zero hash. -/
theorem c4_nonempty_candidate_root_mismatch :
    (minerCandidate zeroHash [exTx1] 0 0).header.merkle_root ≠
      rootOf ([exTx1].map SignedTransaction.hash) := by decide

/-- C4 (amended): every candidate block built by `miner_loop` keeps the
zero `merkle_root` that `Header::new` wrote, whatever transactions it
selects; that value coincides with the Merkle root of the transaction
hashes exactly when the transaction list is empty. -/
theorem c4_miner_merkle_root_always_zero (parent : H256)
    (txs : List SignedTransaction) (nonce timestamp : Nat) :
    (minerCandidate parent txs nonce timestamp).header.merkle_root =
      zeroHash ∧
    (rootOf (txs.map SignedTransaction.hash) = zeroHash ↔ txs = []) := by
  refine ⟨rfl, ?_, ?_⟩
  · intro h
    by_contra hne
    have hraw : (rootOf (txs.map SignedTransaction.hash)).isRaw = false := by
      apply rootOf_isRaw_false
      · simpa using hne
      · intro x hx
        obtain ⟨t, _, rfl⟩ := List.mem_map.mp hx
        rfl
    rw [h] at hraw
    exact absurd hraw (by decide)
  · rintro rfl
    rfl

/-- C4 witness: for the empty selection both sides are the zero hash. -/
theorem c4_miner_merkle_root_witness :
    (minerCandidate zeroHash [] 0 0).header.merkle_root = zeroHash ∧
    rootOf (([] : List SignedTransaction).map SignedTransaction.hash) =
      zeroHash :=
  ⟨(c4_miner_merkle_root_always_zero zeroHash [] 0 0).1,
    (c4_miner_merkle_root_always_zero zeroHash [] 0 0).2.mpr rfl⟩

/-! ## C6: `State::apply_transaction` -/

theorem apply_transaction_ok_eq (V : SignedTransaction → Bool) (s : State)
    (tx : SignedTransaction) (info : AccountInfo) (hv : V tx = true)
    (hlook : alookup s tx.transaction.sender = some info)
    (hle : u128OfI64 tx.transaction.value ≤ info.balance) :
    State.apply_transaction V s tx = .ok (
      ainsert
        (ainsert s tx.transaction.sender
          ⟨(info.nonce + 1) % 2 ^ 64,
            info.balance - u128OfI64 tx.transaction.value⟩)
        tx.transaction.receiver
        ⟨((alookup (ainsert s tx.transaction.sender
              ⟨(info.nonce + 1) % 2 ^ 64,
                info.balance - u128OfI64 tx.transaction.value⟩)
            tx.transaction.receiver).getD ⟨0, 0⟩).nonce,
          (((alookup (ainsert s tx.transaction.sender
                ⟨(info.nonce + 1) % 2 ^ 64,
                  info.balance - u128OfI64 tx.transaction.value⟩)
              tx.transaction.receiver).getD ⟨0, 0⟩).balance +
              u128OfI64 tx.transaction.value) % 2 ^ 128⟩) := by
  simp [State.apply_transaction, hv, hlook, Nat.not_lt.mpr hle]

/-- C6 counterexample: a zero-value transaction whose signature the oracle
accepts and whose sender has no account is rejected with
`Sender account does not exist`, although the claim's reading (absent
accounts implicitly have balance 0 ≥ value 0) predicts success. -/
theorem c6_absent_sender_rejected :
    Vtrue exTxZ = true ∧
    u128OfI64 exTxZ.transaction.value ≤ 0 ∧
    State.apply_transaction Vtrue ([] : State) exTxZ =
      .error ("Sender account does not exist") :=
  ⟨rfl, by decide, rfl⟩

/-- C6 (amended): `apply_transaction` succeeds iff the signature oracle
accepts AND the sender's account exists AND its balance is at least the
transaction value cast to `u128`; on success the sender is debited by the
cast value with its nonce bumped (mod `2^64`), the receiver — created at
nonce 0, balance 0 when absent — is credited (mod `2^128`), and all other
accounts are untouched. -/
theorem c6_apply_transaction_spec (V : SignedTransaction → Bool) (s : State)
    (tx : SignedTransaction) :
    ((∃ s2, State.apply_transaction V s tx = .ok s2) ↔
      (V tx = true ∧ ∃ info, alookup s tx.transaction.sender = some info ∧
        u128OfI64 tx.transaction.value ≤ info.balance)) ∧
    (∀ info, V tx = true → alookup s tx.transaction.sender = some info →
      u128OfI64 tx.transaction.value ≤ info.balance →
      ∃ s2, State.apply_transaction V s tx = .ok s2 ∧
        (tx.transaction.receiver ≠ tx.transaction.sender →
          alookup s2 tx.transaction.sender =
            some ⟨(info.nonce + 1) % 2 ^ 64,
              info.balance - u128OfI64 tx.transaction.value⟩ ∧
          alookup s2 tx.transaction.receiver =
            some ⟨((alookup s tx.transaction.receiver).getD ⟨0, 0⟩).nonce,
              (((alookup s tx.transaction.receiver).getD ⟨0, 0⟩).balance +
                u128OfI64 tx.transaction.value) % 2 ^ 128⟩) ∧
        (tx.transaction.receiver = tx.transaction.sender →
          alookup s2 tx.transaction.sender =
            some ⟨(info.nonce + 1) % 2 ^ 64,
              ((info.balance - u128OfI64 tx.transaction.value) +
                u128OfI64 tx.transaction.value) % 2 ^ 128⟩) ∧
        (∀ a, a ≠ tx.transaction.sender → a ≠ tx.transaction.receiver →
          alookup s2 a = alookup s a)) := by
  constructor
  · constructor
    · rintro ⟨s2, hs2⟩
      by_cases hv : V tx = true
      · rcases hlook : alookup s tx.transaction.sender with _ | info
        · simp [State.apply_transaction, hv, hlook] at hs2
        · by_cases hbal :
              info.balance < u128OfI64 tx.transaction.value
          · simp [State.apply_transaction, hv, hlook, hbal] at hs2
          · exact ⟨hv, info, by simp [hlook], Nat.not_lt.mp hbal⟩
      · simp [State.apply_transaction, hv] at hs2
    · rintro ⟨hv, info, hlook, hle⟩
      exact ⟨_, apply_transaction_ok_eq V s tx info hv hlook hle⟩
  · intro info hv hlook hle
    refine ⟨_, apply_transaction_ok_eq V s tx info hv hlook hle, ?_, ?_, ?_⟩
    · intro hne
      constructor
      · rw [alookup_ainsert_ne _ _ _ _ (Ne.symm hne)]
        exact alookup_ainsert_self _ _ _
      · rw [alookup_ainsert_self,
          alookup_ainsert_ne _ _ _ _ hne]
    · intro heq
      rw [heq, alookup_ainsert_self, alookup_ainsert_self]
      rfl
    · intro a ha1 ha2
      rw [alookup_ainsert_ne _ _ _ _ ha2, alookup_ainsert_ne _ _ _ _ ha1]

/-- C6 witness: the ICO account `"A"` sends 5 to the fresh account `"B"`:
the application succeeds, `"A"` ends at nonce 1, balance 199995 and `"B"`
is created with balance 5. -/
theorem c6_apply_transaction_witness :
    ∃ s2, State.apply_transaction Vtrue (State.new "A") exTx1 = .ok s2 ∧
      alookup s2 "A" = some ⟨1, 199995⟩ ∧ alookup s2 "B" = some ⟨0, 5⟩ := by
  obtain ⟨s2, hok, hsplit, _, _⟩ :=
    (c6_apply_transaction_spec Vtrue (State.new "A") exTx1).2
      ⟨0, 200000⟩ rfl (by decide) (by decide)
  obtain ⟨hs, hr⟩ := hsplit (by decide)
  refine ⟨s2, hok, ?_, ?_⟩
  · rw [show ("A" : String) = exTx1.transaction.sender from rfl, hs]
    decide
  · rw [show ("B" : String) = exTx1.transaction.receiver from rfl, hr]
    decide

/-! ## C8: mempool selection -/

theorem txSelect_length_le (bc : Blockchain) (maxSize : Nat) :
    ∀ (l : List (H256 × SignedTransaction)) (acc : List SignedTransaction),
      acc.length ≤ maxSize → (txSelect bc maxSize l acc).length ≤ maxSize
  | [], acc, h => by simpa [txSelect] using h
  | p :: rest, acc, h => by
      by_cases hm : maxSize ≤ acc.length
      · simpa [txSelect, hm] using h
      · by_cases hc : bc.contains_transaction p.2.hash = true
        · simp only [txSelect]
          rw [if_neg hm, if_pos hc]
          exact txSelect_length_le bc maxSize rest acc h
        · simp only [txSelect]
          rw [if_neg hm, if_neg hc]
          apply txSelect_length_le bc maxSize rest
          simp only [List.length_append, List.length_cons, List.length_nil]
          omega

theorem txSelect_mem (bc : Blockchain) (maxSize : Nat)
    (full : List (H256 × SignedTransaction)) :
    ∀ (l : List (H256 × SignedTransaction)) (acc : List SignedTransaction),
      (∀ p ∈ l, p ∈ full) →
      (∀ tx ∈ acc,
        bc.contains_transaction tx.hash = false ∧ ∃ k, (k, tx) ∈ full) →
      ∀ tx ∈ txSelect bc maxSize l acc,
        bc.contains_transaction tx.hash = false ∧ ∃ k, (k, tx) ∈ full
  | [], acc, _, hacc, tx, htx => hacc tx (by simpa [txSelect] using htx)
  | p :: rest, acc, hsub, hacc, tx, htx => by
      by_cases hm : maxSize ≤ acc.length
      · exact hacc tx (by simpa [txSelect, hm] using htx)
      · by_cases hc : bc.contains_transaction p.2.hash = true
        · simp only [txSelect] at htx
          rw [if_neg hm, if_pos hc] at htx
          exact txSelect_mem bc maxSize full rest acc
            (fun q hq => hsub q (List.mem_cons_of_mem p hq)) hacc tx htx
        · simp only [txSelect] at htx
          rw [if_neg hm, if_neg hc] at htx
          refine txSelect_mem bc maxSize full rest (acc ++ [p.2])
            (fun q hq => hsub q (List.mem_cons_of_mem p hq)) ?_ tx htx
          intro t ht
          rcases List.mem_append.mp ht with h | h
          · exact hacc t h
          · have : t = p.2 := by simpa using h
            subst this
            exact ⟨Bool.eq_false_iff.mpr hc,
              ⟨p.1, hsub p (List.mem_cons_self p rest)⟩⟩

/-- C8 counterexample: `exTx1` sits only in the height-1 side branch
`exB1`, off the longest chain genesis → `exBB` → `exBC`; by the claim it
remains eligible, yet `get_transactions_for_block` (which filters against
ALL stored blocks) returns nothing from a mempool that holds it. -/
theorem c8_off_chain_transaction_excluded :
    exMp.get_transactions_for_block 10 exBc8 = [] ∧
    exMp.transactions ≠ [] ∧
    exBc8.contains_transaction exTx1.hash = true ∧
    ((exBc8.all_blocks_in_longest_chain 10).all (fun hh =>
      match alookup exBc8.blocks hh with
      | some b => b.transactions.all (fun tx => ! decide (tx.hash = exTx1.hash))
      | none => true)) = true := by
  refine ⟨by decide, by decide, by decide, by decide⟩

/-- C8 (amended): `get_transactions_for_block(max, chain)` returns at most
`max` currently-held transactions, each of which appears in NO stored
block at all (`contains_transaction` scans every stored block, so
transactions embedded only in blocks off the longest chain are excluded
as well). -/
theorem c8_get_transactions_spec (mp : Mempool) (maxSize : Nat)
    (bc : Blockchain) :
    (mp.get_transactions_for_block maxSize bc).length ≤ maxSize ∧
    ∀ tx ∈ mp.get_transactions_for_block maxSize bc,
      bc.contains_transaction tx.hash = false ∧
      ∃ k, (k, tx) ∈ mp.transactions :=
  ⟨txSelect_length_le bc maxSize mp.transactions [] (Nat.zero_le _),
    txSelect_mem bc maxSize mp.transactions mp.transactions []
      (fun _ hp => hp) (by simp)⟩

/-- C8 witness: on a fresh chain the mempool transaction `exTx1` is
selected, is contained in no stored block, and stems from the mempool. -/
theorem c8_get_transactions_witness :
    (exMp.get_transactions_for_block 10 (Blockchain.new "A")).length ≤ 10 ∧
    (Blockchain.new "A").contains_transaction exTx1.hash = false ∧
    ∃ k, (k, exTx1) ∈ exMp.transactions :=
  ⟨(c8_get_transactions_spec exMp 10 (Blockchain.new "A")).1,
    ((c8_get_transactions_spec exMp 10 (Blockchain.new "A")).2 exTx1
      (by decide)).1,
    ((c8_get_transactions_spec exMp 10 (Blockchain.new "A")).2 exTx1
      (by decide)).2⟩

/-! ## C9: fork choice keeps the tip maximal -/

theorem lengths_self_le_newLen (bc : Blockchain) (b : Block) (hwf : bc.WF)
    {n : Nat} (hn : alookup bc.lengths b.hash = some n) :
    n ≤ lenAt bc b.header.parent + 1 := by
  obtain ⟨_, hhash, _, hlb, _, hbound⟩ := hwf
  obtain ⟨b0, hb0⟩ := hlb _ _ hn
  have hb0h : b0.hash = b.hash := hhash _ _ hb0
  have hhdr : b0.header = b.header := header_hash_inj hb0h
  have hb := hbound _ _ _ hb0 hn
  rwa [hhdr] at hb

/-- C9: on a well-formed chain, `insert` preserves well-formedness — in
particular the tip still has maximal height among all stored blocks — and
it moves the tip to the inserted block exactly when the new height
`height[parent] + 1` is strictly greater than the tip's height; a tie
leaves the tip at the first-seen block. -/
theorem c9_insert_tip_maximal (V : SignedTransaction → Bool)
    (bc : Blockchain) (b : Block) (hwf : bc.WF) :
    (bc.insert V b).WF ∧
    (∀ t, alookup bc.lengths bc.tip = some t →
      (bc.insert V b).tip =
        (if t < lenAt bc b.header.parent + 1 then b.hash else bc.tip)) := by
  obtain ⟨⟨t0, ht0⟩, hhash, hbl, hlb, hmax, hbound⟩ := hwf
  have hph : b.header.parent ≠ b.hash := Ne.symm (block_hash_ne_parent b)
  simp only [Blockchain.insert, Blockchain.WF, lenAt] at *
  have hselfL :
      alookup (ainsert bc.lengths b.hash
        ((alookup bc.lengths b.header.parent).getD 0 + 1)) b.hash =
      some ((alookup bc.lengths b.header.parent).getD 0 + 1) :=
    alookup_ainsert_self _ _ _
  have hneL : ∀ x, x ≠ b.hash →
      alookup (ainsert bc.lengths b.hash
        ((alookup bc.lengths b.header.parent).getD 0 + 1)) x =
      alookup bc.lengths x :=
    fun x hx => alookup_ainsert_ne _ _ _ _ hx
  have hselfB : alookup (ainsert bc.blocks b.hash b) b.hash = some b :=
    alookup_ainsert_self _ _ _
  have hneB : ∀ x, x ≠ b.hash →
      alookup (ainsert bc.blocks b.hash b) x = alookup bc.blocks x :=
    fun x hx => alookup_ainsert_ne _ _ _ _ hx
  have hstar : ∀ n, alookup bc.lengths b.hash = some n →
      n ≤ (alookup bc.lengths b.header.parent).getD 0 + 1 := by
    intro n hn
    have := lengths_self_le_newLen bc b
      ⟨⟨t0, ht0⟩, hhash, hbl, hlb, hmax, hbound⟩ hn
    simpa [lenAt] using this
  constructor
  · refine ⟨?_, ?_, ?_, ?_, ?_, ?_⟩
    · -- the tip has a height entry
      by_cases hc : optLt
          (alookup (ainsert bc.lengths b.hash
            ((alookup bc.lengths b.header.parent).getD 0 + 1)) bc.tip)
          (alookup (ainsert bc.lengths b.hash
            ((alookup bc.lengths b.header.parent).getD 0 + 1)) b.hash) = true
      · simp only [hc, if_true]
        exact ⟨_, hselfL⟩
      · simp only [hc, if_false, Bool.false_eq_true]
        by_cases hth : bc.tip = b.hash
        · rw [hth]; exact ⟨_, hselfL⟩
        · rw [hneL _ hth]; exact ⟨t0, ht0⟩
    · -- stored blocks sit at their own hash
      intro x bx hbx
      by_cases hx : x = b.hash
      · subst hx
        rw [hselfB] at hbx
        cases hbx
        rfl
      · rw [hneB _ hx] at hbx
        exact hhash _ _ hbx
    · -- blocks have height entries
      intro x bx hbx
      by_cases hx : x = b.hash
      · subst hx; exact ⟨_, hselfL⟩
      · rw [hneB _ hx] at hbx
        obtain ⟨n, hn⟩ := hbl _ _ hbx
        exact ⟨n, by rw [hneL _ hx]; exact hn⟩
    · -- height entries have blocks
      intro x n hn
      by_cases hx : x = b.hash
      · subst hx; exact ⟨b, hselfB⟩
      · rw [hneL _ hx] at hn
        obtain ⟨bx, hbx⟩ := hlb _ _ hn
        exact ⟨bx, by rw [hneB _ hx]; exact hbx⟩
    · -- the tip's height is maximal
      intro x n t2 hn ht2
      by_cases hc : optLt
          (alookup (ainsert bc.lengths b.hash
            ((alookup bc.lengths b.header.parent).getD 0 + 1)) bc.tip)
          (alookup (ainsert bc.lengths b.hash
            ((alookup bc.lengths b.header.parent).getD 0 + 1)) b.hash) = true
      · -- the tip switched to the new block
        simp only [hc, if_true] at ht2
        rw [hselfL] at ht2
        cases ht2
        by_cases hth : bc.tip = b.hash
        · rw [hth, hselfL] at hc
          simp [optLt] at hc
        · rw [hneL _ hth, ht0, hselfL] at hc
          simp only [optLt, decide_eq_true_eq] at hc
          by_cases hx : x = b.hash
          · subst hx
            rw [hselfL] at hn
            cases hn
            exact le_refl _
          · rw [hneL _ hx] at hn
            exact le_of_lt (lt_of_le_of_lt (hmax _ _ _ hn ht0) hc)
      · -- the tip stayed
        simp only [hc, if_false, Bool.false_eq_true] at ht2
        by_cases hth : bc.tip = b.hash
        · rw [hth, hselfL] at ht2
          cases ht2
          by_cases hx : x = b.hash
          · subst hx
            rw [hselfL] at hn
            cases hn
            exact le_refl _
          · rw [hneL _ hx] at hn
            have h1 := hmax _ _ _ hn ht0
            have h2 := hstar t0 (hth ▸ ht0)
            omega
        · rw [hneL _ hth, ht0] at ht2
          cases ht2
          have hge : (alookup bc.lengths b.header.parent).getD 0 + 1 ≤ t0 := by
            rw [hneL _ hth, ht0, hselfL] at hc
            simp only [optLt, decide_eq_true_eq] at hc
            omega
          by_cases hx : x = b.hash
          · subst hx
            rw [hselfL] at hn
            cases hn
            exact hge
          · rw [hneL _ hx] at hn
            exact hmax _ _ _ hn ht0
    · -- heights are bounded by the parent height plus one
      intro x bx n hbx hn
      by_cases hx : x = b.hash
      · subst hx
        rw [hselfB] at hbx
        cases hbx
        rw [hselfL] at hn
        cases hn
        rw [hneL _ hph]
      · rw [hneB _ hx] at hbx
        rw [hneL _ hx] at hn
        have hb := hbound _ _ _ hbx hn
        by_cases hpx : bx.header.parent = b.hash
        · rw [hpx, hselfL]
          rw [hpx] at hb
          rcases hlook : alookup bc.lengths b.hash with _ | m
          · rw [hlook] at hb
            simp only [Option.getD_none] at hb
            simp only [Option.getD_some]
            omega
          · rw [hlook] at hb
            have := hstar m hlook
            simp only [Option.getD_some] at hb ⊢
            omega
        · rw [hneL _ hpx]
          exact hb
  · -- tip update characterization
    intro t ht
    by_cases hth : bc.tip = b.hash
    · rw [hth, hselfL]
      simp
    · rw [hneL _ hth, ht, hselfL]
      simp only [optLt, decide_eq_true_eq]

theorem wf_new (ico : String) : (Blockchain.new ico).WF := by
  refine ⟨⟨0, ?_⟩, ?_, ?_, ?_, ?_, ?_⟩
  · simp [Blockchain.new, alookup]
  · intro x bx hbx
    simp only [Blockchain.new] at hbx
    obtain ⟨hx, hbx2⟩ := alookup_singleton hbx
    subst hx; subst hbx2
    rfl
  · intro x bx hbx
    simp only [Blockchain.new] at hbx ⊢
    obtain ⟨hx, _⟩ := alookup_singleton hbx
    subst hx
    exact ⟨0, by simp [alookup]⟩
  · intro x n hn
    simp only [Blockchain.new] at hn ⊢
    obtain ⟨hx, _⟩ := alookup_singleton hn
    subst hx
    exact ⟨Block.get_genesis_block, by simp [alookup]⟩
  · intro x n t hn ht
    simp only [Blockchain.new] at hn ht
    obtain ⟨_, hn2⟩ := alookup_singleton hn
    obtain ⟨_, ht2⟩ := alookup_singleton ht
    subst hn2; subst ht2
    exact le_refl 0
  · intro x bx n hbx hn
    simp only [Blockchain.new] at hn
    obtain ⟨_, hn2⟩ := alookup_singleton hn
    subst hn2
    exact Nat.zero_le _

/-- C9 witness: inserting `exB1` (height 1) into a fresh chain moves the
tip to `exB1`, and the updated chain's tip is still maximal. -/
theorem c9_insert_tip_maximal_witness :
    ((Blockchain.new "A").insert Vtrue exB1).tip = exB1.hash ∧
    (∀ x n t2,
      alookup ((Blockchain.new "A").insert Vtrue exB1).lengths x = some n →
      alookup ((Blockchain.new "A").insert Vtrue exB1).lengths
        ((Blockchain.new "A").insert Vtrue exB1).tip = some t2 → n ≤ t2) := by
  have H := c9_insert_tip_maximal Vtrue (Blockchain.new "A") exB1 (wf_new "A")
  constructor
  · have h2 := H.2 0 (by decide)
    rw [h2]
    decide
  · exact H.1.2.2.2.2.1

/-! ## C1 and C7: the state snapshot traversal -/

theorem applyTxs_append (V : SignedTransaction → Bool) :
    ∀ (l1 l2 : List SignedTransaction) (s : State),
      applyTxs V s (l1 ++ l2) =
        (match applyTxs V s l1 with
         | .ok s2 => applyTxs V s2 l2
         | .error e => .error e)
  | [], l2, s => by simp [applyTxs]
  | tx :: rest, l2, s => by
      simp only [List.cons_append, applyTxs]
      cases happ : State.apply_transaction V s tx with
      | error e => rfl
      | ok s2 => exact applyTxs_append V rest l2 s2

theorem chainSeg_lenAt (bc : Blockchain) :
    ∀ (cs : List Block) (h : H256) (n : Nat),
      chainSeg bc cs h n = true → lenAt bc h = n
  | [], h, n, hseg => by
      simp [chainSeg] at hseg
      omega
  | b :: rest, h, n, hseg => by
      simp [chainSeg] at hseg
      simp [lenAt, hseg.1.1.2]

theorem chainSeg_end (bc : Blockchain) :
    ∀ (cs : List Block) (h : H256) (n : Nat),
      chainSeg bc cs h n = true → ∃ h2, lenAt bc h2 = 0
  | [], h, _, hseg => by
      simp [chainSeg] at hseg
      exact ⟨h, hseg.2⟩
  | b :: rest, _, n, hseg => by
      simp [chainSeg] at hseg
      exact chainSeg_end bc rest _ _ hseg.2

theorem innerLoop_spec (V : SignedTransaction → Bool) (bc : Blockchain)
    (bn : Nat) :
    ∀ (cs : List Block) (st : State) (h : H256) (n fuel : Nat),
      chainSeg bc cs h n = true → n ≤ bn → n < fuel →
      ∃ h2, lenAt bc h2 = 0 ∧
        innerLoop V bc bn fuel st h n =
          (match applyTxs V st (concatTxs cs) with
           | .ok s2 => InnerRes.cont s2 h2 0
           | .error e => InnerRes.err e)
  | [], st, h, n, fuel, hseg, hbn, hfuel => by
      simp [chainSeg] at hseg
      obtain ⟨hn0, hlen⟩ := hseg
      subst hn0
      obtain ⟨f, rfl⟩ : ∃ f, fuel = f + 1 := ⟨fuel - 1, by omega⟩
      refine ⟨h, hlen, ?_⟩
      simp [innerLoop, applyTxs, concatTxs]
  | b :: rest, st, h, n, fuel, hseg, hbn, hfuel => by
      simp [chainSeg] at hseg
      obtain ⟨⟨⟨hblk, hlenn⟩, hpos⟩, hrest⟩ := hseg
      obtain ⟨f, rfl⟩ : ∃ f, fuel = f + 1 := ⟨fuel - 1, by omega⟩
      have hparlen : lenAt bc b.header.parent = n - 1 :=
        chainSeg_lenAt bc rest _ _ hrest
      simp only [innerLoop]
      rw [if_pos ⟨hpos, hbn⟩, hblk]
      simp only [concatTxs]
      rw [applyTxs_append]
      cases happ : applyTxs V st b.transactions with
      | error e =>
          obtain ⟨h2, hh2⟩ := chainSeg_end bc rest _ _ hrest
          exact ⟨h2, hh2, rfl⟩
      | ok s2 =>
          rw [hparlen]
          obtain ⟨h2, hh2, hrec⟩ := innerLoop_spec V bc bn rest s2
            b.header.parent (n - 1) f hrest (by omega) (by omega)
          exact ⟨h2, hh2, hrec⟩

theorem outerLoop_spec (V : SignedTransaction → Bool) (bc : Blockchain)
    (bn : Nat) (hbn : 1 ≤ bn) :
    ∀ (cs : List Block) (st : State) (h : H256) (n fuel : Nat),
      chainSeg bc cs h n = true → bn ≤ n → n + 2 ≤ fuel →
      outerLoop V bc bn fuel st h n =
        toRunResult (applyTxs V st (concatTxs (cs.drop (n - bn))))
  | [], st, h, n, fuel, hseg, hn, hfuel => by
      simp [chainSeg] at hseg
      omega
  | b :: rest, st, h, n, fuel, hseg, hn, hfuel => by
      have hseg2 := hseg
      simp [chainSeg] at hseg2
      obtain ⟨⟨⟨hblk, hlenn⟩, hpos⟩, hrest⟩ := hseg2
      obtain ⟨f, rfl⟩ : ∃ f, fuel = f + 1 := ⟨fuel - 1, by omega⟩
      simp only [outerLoop]
      rw [if_pos hn]
      by_cases hean : n = bn
      · subst hean
        obtain ⟨h2, hh2, hinner⟩ := innerLoop_spec V bc n (b :: rest) st h n
          (f + 1) hseg (le_refl n) (by omega)
        rw [hinner]
        cases happ : applyTxs V st (concatTxs (b :: rest)) with
        | error e =>
            simp only [Nat.sub_self, List.drop_zero, happ, toRunResult]
        | ok s2 =>
            simp only [happ]
            rw [if_neg (by omega)]
            obtain ⟨f2, rfl⟩ : ∃ f2, f = f2 + 1 := ⟨f - 1, by omega⟩
            simp only [outerLoop]
            rw [if_neg (by omega)]
            simp only [Nat.sub_self, List.drop_zero, happ, toRunResult]
      · have hlt : bn < n := by omega
        have hin : innerLoop V bc bn (f + 1) st h n = InnerRes.cont st h n := by
          simp only [innerLoop]
          rw [if_neg (by omega)]
        simp only [hin]
        rw [if_pos hpos]
        simp only [hblk]
        have hparlen : lenAt bc b.header.parent = n - 1 :=
          chainSeg_lenAt bc rest _ _ hrest
        rw [hparlen]
        rw [outerLoop_spec V bc bn hbn rest st b.header.parent (n - 1) f hrest
          (by omega) (by omega)]
        rw [show n - bn = (n - 1 - bn) + 1 from by omega, List.drop_succ_cons]

theorem get_state_spec (V : SignedTransaction → Bool) (ico : String)
    (bc : Blockchain) (cs : List Block) (T h fuel : Nat)
    (hseg : chainSeg bc cs bc.tip T = true) (hT : 1 ≤ T) (hh : 1 ≤ h)
    (hfuel : T + 2 ≤ fuel) :
    bc.get_state_up_to_block V ico h fuel =
      toRunResult (applyTxs V (State.new ico)
        (concatTxs (cs.drop (T - min h T)))) := by
  have hlen : lenAt bc bc.tip = T := chainSeg_lenAt bc cs _ _ hseg
  simp only [Blockchain.get_state_up_to_block, hlen]
  have hcl : (if h > T then T else h) = min h T := by
    rcases le_or_lt h T with hle | hlt
    · rw [if_neg (by omega), Nat.min_eq_left hle]
    · rw [if_pos hlt, Nat.min_eq_right (by omega)]
  rw [hcl]
  exact outerLoop_spec V bc (min h T) (le_min hh hT) cs (State.new ico)
    bc.tip T fuel hseg (min_le_right h T) hfuel

/-- C1 counterexample: on the chain genesis → `exB1` → `exB2` with
`h = 2`, the snapshot visits `exB2` (which spends coins that only exist
after `exB1`) FIRST and aborts with an error, while the claimed
genesis-to-tip replay of the same blocks succeeds — the function neither
replays genesis-forward nor returns that state. -/
theorem c1_snapshot_not_genesis_forward :
    exBc2.get_state_up_to_block Vtrue "A" 2 10 =
      RunResult.err ("Sender account does not exist") ∧
    applyTxs Vtrue (State.new "A") (concatTxs [exB1, exB2]) =
      .ok [("A", ⟨1, 199995⟩), ("B", ⟨1, 2⟩), ("C", ⟨0, 3⟩)] :=
  ⟨by decide, by decide⟩

/-- C1 (amended): for a well-formed longest chain of height `T ≥ 1` and a
request `h ≥ 1`, `get_state_up_to_block` clamps `h` to `T` and returns
the result of applying, starting from `State::new()`, the transactions of
the chain blocks of height ≤ min(h, T) in TIP-TO-GENESIS order,
propagating the first application failure as an error (for `h = 0`, or on
a chain consisting only of genesis, the loop never terminates — it
returns `out` at every fuel). -/
theorem c1_get_state_traversal (V : SignedTransaction → Bool) (ico : String)
    (bc : Blockchain) (cs : List Block) (T h fuel : Nat)
    (hseg : chainSeg bc cs bc.tip T = true) (hT : 1 ≤ T) (hh : 1 ≤ h)
    (hfuel : T + 2 ≤ fuel) :
    bc.get_state_up_to_block V ico h fuel =
      toRunResult (applyTxs V (State.new ico)
        (concatTxs (cs.drop (T - min h T)))) :=
  get_state_spec V ico bc cs T h fuel hseg hT hh hfuel

/-- C1 witness: the one-block chain `exBcE` with the request clamped from
5 to the tip height 1 yields the replayed (here: initial) state. -/
theorem c1_get_state_traversal_witness :
    exBcE.get_state_up_to_block Vtrue "A" 5 3 =
      toRunResult (applyTxs Vtrue (State.new "A")
        (concatTxs (([exBE] : List Block).drop (1 - min 5 1)))) ∧
    exBcE.get_state_up_to_block Vtrue "A" 5 3 =
      RunResult.ok (State.new "A") := by
  have H := c1_get_state_traversal Vtrue "A" exBcE [exBE] 1 5 3 (by decide)
    (by decide) (by decide) (by decide)
  exact ⟨H, by rw [H]; decide⟩

/-- C7 counterexample: in `exBcZ` the only chain transaction fails
(absent sender); the snapshot does NOT skip it and return the remaining
state — it aborts with the error. -/
theorem c7_failing_transaction_not_skipped :
    exBcZ.get_state_up_to_block Vtrue "A" 1 10 =
      RunResult.err ("Sender account does not exist") ∧
    exBcZ.get_state_up_to_block Vtrue "A" 1 10 ≠
      RunResult.ok (State.new "A") :=
  ⟨by decide, by decide⟩

/-- C7 (amended): a transaction whose application fails during the
snapshot traversal ABORTS `get_state_up_to_block`: whenever the replay of
the traversed transactions ends in `Err e`, the function propagates
exactly that error instead of skipping the transaction. -/
theorem c7_apply_failure_aborts (V : SignedTransaction → Bool)
    (ico : String) (bc : Blockchain) (cs : List Block) (T h fuel : Nat)
    (e : String) (hseg : chainSeg bc cs bc.tip T = true) (hT : 1 ≤ T)
    (hh : 1 ≤ h) (hfuel : T + 2 ≤ fuel)
    (herr : applyTxs V (State.new ico)
      (concatTxs (cs.drop (T - min h T))) = .error e) :
    bc.get_state_up_to_block V ico h fuel = RunResult.err e := by
  rw [get_state_spec V ico bc cs T h fuel hseg hT hh hfuel, herr]
  rfl

/-- C7 witness: on `exBcZ` the failing ICO-less transfer aborts the
snapshot with its error message. -/
theorem c7_apply_failure_aborts_witness :
    exBcZ.get_state_up_to_block Vtrue "A" 1 3 =
      RunResult.err ("Sender account does not exist") :=
  c7_apply_failure_aborts Vtrue "A" exBcZ [exBZ] 1 1 3
    ("Sender account does not exist") (by decide) (by decide) (by decide)
    (by decide) (by decide)

/-! ## C2: Merkle proof verification -/

theorem combinePairs_getD :
    ∀ (l : List H256) (j : Nat), 2 * j + 1 < l.length →
      (combinePairs l).getD j zeroHash =
        H256.shaPair (l.getD (2 * j) zeroHash) (l.getD (2 * j + 1) zeroHash)
  | a :: b :: rest, 0, _ => by simp [combinePairs]
  | a :: b :: rest, j + 1, hj => by
      have hr : 2 * j + 1 < rest.length := by
        simp only [List.length_cons] at hj; omega
      have ih := combinePairs_getD rest j hr
      have e1 : 2 * (j + 1) = 2 * j + 1 + 1 := by ring
      rw [e1]
      simp only [combinePairs, List.getD_cons_succ]
      exact ih
  | [], j, hj => by simp at hj
  | [_], j, hj => by simp at hj

theorem cpPad_length_lt (cur : List H256) (h : 2 ≤ cur.length) :
    (combinePairs (padLayer cur)).length < cur.length := by
  have h1 := combinePairs_length (padLayer cur)
  have h2 := padLayer_length cur
  omega

theorem buildLayers_of_short (cur : List H256) (h : cur.length ≤ 1) :
    ∀ g, buildLayers g cur = []
  | 0 => rfl
  | g + 1 => by simp [buildLayers, h]

theorem rootAux_of_short (cur : List H256) (h : cur.length ≤ 1) :
    ∀ g, rootAux g cur = cur
  | 0 => rfl
  | g + 1 => by simp [rootAux, h]

theorem buildLayers_stable :
    ∀ (f g : Nat) (cur : List H256), cur.length ≤ f → cur.length ≤ g →
      buildLayers f cur = buildLayers g cur
  | 0, g, cur, hf, _ => by
      have : cur.length ≤ 1 := by omega
      rw [buildLayers_of_short cur this 0, buildLayers_of_short cur this g]
  | f + 1, g, cur, hf, hg => by
      by_cases hlen : cur.length ≤ 1
      · rw [buildLayers_of_short cur hlen (f + 1),
          buildLayers_of_short cur hlen g]
      · have h2 : 2 ≤ cur.length := by omega
        obtain ⟨g2, rfl⟩ : ∃ g2, g = g2 + 1 := ⟨g - 1, by omega⟩
        have hcp := cpPad_length_lt cur h2
        simp only [buildLayers, if_neg hlen]
        rw [buildLayers_stable f g2 (combinePairs (padLayer cur))
          (by omega) (by omega)]

theorem rootAux_stable :
    ∀ (f g : Nat) (cur : List H256), cur.length ≤ f → cur.length ≤ g →
      rootAux f cur = rootAux g cur
  | 0, g, cur, hf, _ => by
      have : cur.length ≤ 1 := by omega
      rw [rootAux_of_short cur this 0, rootAux_of_short cur this g]
  | f + 1, g, cur, hf, hg => by
      by_cases hlen : cur.length ≤ 1
      · rw [rootAux_of_short cur hlen (f + 1), rootAux_of_short cur hlen g]
      · have h2 : 2 ≤ cur.length := by omega
        obtain ⟨g2, rfl⟩ : ∃ g2, g = g2 + 1 := ⟨g - 1, by omega⟩
        have hcp := cpPad_length_lt cur h2
        simp only [rootAux, if_neg hlen]
        rw [rootAux_stable f g2 (combinePairs (padLayer cur))
          (by omega) (by omega)]

theorem layersOf_step (cur : List H256) (h : 2 ≤ cur.length) :
    layersOf cur =
      padLayer cur :: layersOf (combinePairs (padLayer cur)) := by
  obtain ⟨l2, hl⟩ : ∃ l2, cur.length = l2 + 1 := ⟨cur.length - 1, by omega⟩
  have hcp := cpPad_length_lt cur h
  simp only [layersOf]
  rw [hl]
  simp only [buildLayers, if_neg (by omega : ¬ cur.length ≤ 1)]
  rw [buildLayers_stable l2 (combinePairs (padLayer cur)).length
    (combinePairs (padLayer cur)) (by omega) (le_refl _)]

theorem rootOf_step (cur : List H256) (h : 2 ≤ cur.length) :
    rootOf cur = rootOf (combinePairs (padLayer cur)) := by
  obtain ⟨l2, hl⟩ : ∃ l2, cur.length = l2 + 1 := ⟨cur.length - 1, by omega⟩
  have hcp := cpPad_length_lt cur h
  simp only [rootOf]
  rw [hl]
  simp only [rootAux, if_neg (by omega : ¬ cur.length ≤ 1)]
  rw [rootAux_stable l2 (combinePairs (padLayer cur)).length
    (combinePairs (padLayer cur)) (by omega) (le_refl _)]

theorem padLayer_even (cur : List H256) (h : cur.length % 2 = 0) :
    padLayer cur = cur := by
  simp [padLayer, h]

theorem merkle_path_ok :
    ∀ (k : Nat) (cur : List H256) (i : Nat),
      cur.length = 2 ^ k → i < cur.length →
      verifyGo (rootOf cur) (proofAux (layersOf cur) i)
        (cur.getD i zeroHash) (i + cur.length - 1) = true
  | 0, cur, i, hlen, hi => by
      simp only [pow_zero] at hlen
      rcases cur with _ | ⟨x, t⟩
      · simp at hlen
      · rcases t with _ | ⟨y, t2⟩
        · have hi0 : i = 0 := by simp at hi; omega
          subst hi0
          have hL : layersOf [x] = [] := by
            simp only [layersOf]
            rw [buildLayers_of_short [x] (by simp)]
          have hR : rootOf [x] = x := by
            simp only [rootOf]
            rw [rootAux_of_short [x] (by simp)]
          rw [hL, hR]
          simp [proofAux, verifyGo]
        · simp at hlen
  | k + 1, cur, i, hlen, hi => by
      have hm : 0 < 2 ^ k := Nat.two_pow_pos k
      have hlen2 : cur.length = 2 * 2 ^ k := by rw [hlen]; ring
      have h2 : 2 ≤ cur.length := by omega
      have heven : cur.length % 2 = 0 := by omega
      have hpad : padLayer cur = cur := padLayer_even cur heven
      have hnextlen : (combinePairs cur).length = 2 ^ k := by
        rw [combinePairs_length]; omega
      have hstep := layersOf_step cur h2
      rw [hpad] at hstep
      have hroot := rootOf_step cur h2
      rw [hpad] at hroot
      rw [hstep, hroot]
      simp only [proofAux, verifyGo]
      have ih := merkle_path_ok k (combinePairs cur) (i / 2) hnextlen
        (by omega)
      rw [hnextlen] at ih
      have hidxhalf : (i + cur.length - 1 - 1) / 2 = i / 2 + 2 ^ k - 1 := by
        omega
      rcases Nat.even_or_odd i with he | ho
      · have hi2 : i % 2 = 0 := Nat.even_iff.mp he
        have hcomb := combinePairs_getD cur (i / 2) (by omega)
        have henc : 2 * (i / 2) = i := by omega
        rw [henc] at hcomb
        rw [if_pos hi2,
          if_neg (by omega : ¬ (i + cur.length - 1) % 2 = 0),
          ← hcomb, hidxhalf]
        exact ih
      · have hi2 : i % 2 = 1 := Nat.odd_iff.mp ho
        have hcomb := combinePairs_getD cur (i / 2) (by omega)
        have henc2 : 2 * (i / 2) + 1 = i := by omega
        rw [henc2] at hcomb
        have henc1 : 2 * (i / 2) = i - 1 := by omega
        rw [henc1] at hcomb
        rw [if_neg (by omega : ¬ i % 2 = 0),
          if_pos (by omega : (i + cur.length - 1) % 2 = 0),
          ← hcomb, hidxhalf]
        exact ih

theorem merkle_single (x : H256) (idx : Nat) :
    verifyGo (rootOf [x]) (proofAux (layersOf [x]) 0) ([x].getD 0 zeroHash)
      idx = true := by
  have hL : layersOf [x] = [] := by
    simp only [layersOf]
    rw [buildLayers_of_short [x] (by simp)]
  have hR : rootOf [x] = x := by
    simp only [rootOf]
    rw [rootAux_of_short [x] (by simp)]
  rw [hL, hR]
  simp [proofAux, verifyGo]

/-- C2 counterexample: for the five-leaf input `exLeaves5` (padded layer
size 6, not a power of two) the proof for index 0 does NOT verify: the
heap-style re-indexing of `verify` mismatches the layered construction. -/
theorem c2_merkle_verify_fails_at_five_leaves :
    0 < exLeaves5.length ∧
    Merkle.verify (MerkleTree.new exLeaves5).root
      (exLeaves5.getD 0 zeroHash) ((MerkleTree.new exLeaves5).proof 0) 0
      exLeaves5.length = false :=
  ⟨by decide, by decide⟩

/-- C2 (amended): for every Merkle input whose leaf count (rounded up to
even) is a power of two — that is, `|xs| = 2^k` or `|xs| + 1 = 2^k` — and
every index `i < |xs|`,
`verify(root(xs), xs[i], proof(i), i, |xs|)` returns true; for other leaf
counts (e.g. 5 or 6) verification of honest proofs fails. -/
theorem c2_merkle_verify_pow2 (leaves : List H256) (i k : Nat)
    (hpow : leaves.length = 2 ^ k ∨ leaves.length + 1 = 2 ^ k)
    (hi : i < leaves.length) :
    Merkle.verify (MerkleTree.new leaves).root (leaves.getD i zeroHash)
      ((MerkleTree.new leaves).proof i) i leaves.length = true := by
  simp only [MerkleTree.new, MerkleTree.proof, Merkle.verify]
  by_cases hodd : leaves.length % 2 ≠ 0
  · rw [if_pos hodd]
    by_cases h1 : leaves.length = 1
    · rcases leaves with _ | ⟨x, t⟩
      · simp at h1
      · rcases t with _ | ⟨y, t2⟩
        · have hi0 : i = 0 := by simp at hi; omega
          subst hi0
          exact merkle_single x _
        · simp at h1
    · have hlen3 : 3 ≤ leaves.length := by omega
      rcases hpow with hp | hp
      · exfalso
        rcases k with _ | k2
        · simp at hp; omega
        · have : leaves.length = 2 * 2 ^ k2 := by rw [hp]; ring
          omega
      · have hPlen : (padLayer leaves).length = leaves.length + 1 := by
          rw [padLayer_length]; omega
        have hP2 : (padLayer leaves).length = 2 ^ k := by omega
        have hPeven : (padLayer leaves).length % 2 = 0 := by
          rw [hP2]
          rcases k with _ | k2
          · omega
          · have : (2 : Nat) ^ (k2 + 1) = 2 * 2 ^ k2 := by ring
            omega
        have hPP : padLayer (padLayer leaves) = padLayer leaves :=
          padLayer_even _ hPeven
        have hlay : layersOf leaves = layersOf (padLayer leaves) := by
          rw [layersOf_step leaves (by omega),
            layersOf_step (padLayer leaves) (by omega), hPP]
        have hrt : rootOf leaves = rootOf (padLayer leaves) := by
          rw [rootOf_step leaves (by omega),
            rootOf_step (padLayer leaves) (by omega), hPP]
        have hget : (padLayer leaves).getD i zeroHash =
            leaves.getD i zeroHash := by
          simp only [padLayer, if_pos hodd]
          exact List.getD_append _ _ _ _ hi
        rw [hlay, hrt, ← hget]
        have hmain := merkle_path_ok k (padLayer leaves) i hP2 (by omega)
        rw [hPlen] at hmain
        exact hmain
  · rw [if_neg hodd]
    rcases hpow with hp | hp
    · exact merkle_path_ok k leaves i hp hi
    · exfalso
      rcases k with _ | k2
      · rw [pow_zero] at hp; omega
      · have : leaves.length + 1 = 2 * 2 ^ k2 := by rw [hp]; ring
        omega

/-- C2 witness: for the two-leaf input the proof at index 0 verifies. -/
theorem c2_merkle_verify_witness :
    Merkle.verify (MerkleTree.new [H256.raw 1, H256.raw 2]).root
      ([H256.raw 1, H256.raw 2].getD 0 zeroHash)
      ((MerkleTree.new [H256.raw 1, H256.raw 2]).proof 0) 0
      ([H256.raw 1, H256.raw 2] : List H256).length = true :=
  c2_merkle_verify_pow2 [H256.raw 1, H256.raw 2] 0 1 (Or.inl (by decide))
    (by decide)
